import Mathlib

/-!
Shallow embedding of the Memex unified-search core
(src/search/background/utils.ts and the blank-search engine specified in
spec.md sections 4.5/4.6), together with theorems settling the frozen
claims about it.  JS strings are embedded as `List Char`, JS numbers used
as epoch-millisecond timestamps as `Nat`, JS `Map`s as total functions
with the `?? 0` default applied, and JS arrays as Lean lists.
-/

namespace Memex

/-- JS strings, embedded as lists of characters. -/
abbrev JsStr := List Char

/-- The double-quote character (character code 34). -/
def dquote : Char := Char.ofNat 34

/-- Embeds `String.prototype.toLocaleLowerCase` as a character-wise
lower-casing (faithful on the ASCII data the search core handles). -/
def jsToLower (s : JsStr) : JsStr := s.map Char.toLower

/-- Whitespace recognised by JS `trim` / the `\s` regex class
(restricted to the ASCII whitespace characters). -/
def jsIsSpace (c : Char) : Bool :=
  c = ' ' || c = '\t' || c = '\n' || c = '\r' || c = Char.ofNat 11 || c = Char.ofNat 12

/-- Embeds `String.prototype.split(sep)` for a single-character separator:
splits at every occurrence of `sep`, keeping empty fragments (so the
result always has one more fragment than there are separators). -/
def splitOnChar (sep : Char) : JsStr → List JsStr
  | [] => [[]]
  | c :: rest =>
    let r := splitOnChar sep rest
    if c = sep then [] :: r
    else
      match r with
      | [] => [[c]]
      | f :: fs => (c :: f) :: fs

/-- Embeds `String.prototype.trim`: drops leading and trailing JS whitespace. -/
def jsTrim (s : JsStr) : JsStr :=
  ((s.dropWhile jsIsSpace).reverse.dropWhile jsIsSpace).reverse

/-- Auxiliary for `splitWsFields`: processes the string from the right,
returning the run of non-whitespace characters adjacent to the current
position together with the completed runs further right. -/
def splitWsAux : JsStr → JsStr × List JsStr
  | [] => ([], [])
  | c :: rest =>
    let r := splitWsAux rest
    if jsIsSpace c then
      ([], if r.1.isEmpty then r.2 else r.1 :: r.2)
    else
      (c :: r.1, r.2)

/-- Embeds `str.split(/\s+/).filter(Boolean)`: the maximal runs of
non-whitespace characters, in order. -/
def splitWsFields (s : JsStr) : List JsStr :=
  let r := splitWsAux s
  if r.1.isEmpty then r.2 else r.1 :: r.2

/-- Adds an element to a JS `Set` modelled as an insertion-ordered
duplicate-free list: a no-op when already present, appended otherwise. -/
def setAdd {α : Type} [DecidableEq α] (acc : List α) (x : α) : List α :=
  if x ∈ acc then acc else acc ++ [x]

/-- Spreading a JS `Set` built by inserting the elements of `l` in order:
deduplication keeping first occurrences. -/
def dedupJs {α : Type} [DecidableEq α] (l : List α) : List α :=
  l.foldl setAdd []

/-- Embeds the `wasNotDoubleQuoted` test of `splitQueryIntoTerms`
(src/search/background/utils.ts:195): a fragment counts as not
double-quoted when trimming changes its length (it carries edge
whitespace) or it equals the whole original query string verbatim. -/
def wasNotDoubleQuoted (query frag : JsStr) : Bool :=
  decide ((jsTrim frag).length ≠ frag.length) || decide (frag = query)

/-- Result shape of `splitQueryIntoTerms`. -/
structure SplitQueryResult where
  terms : List JsStr
  phrases : List JsStr
deriving DecidableEq

/-- One iteration of the `for (const term of terms)` loop of
`splitQueryIntoTerms`, threading the two accumulated sets. -/
def tokStep (query : JsStr) (st : List JsStr × List JsStr) (frag : JsStr) :
    List JsStr × List JsStr :=
  if wasNotDoubleQuoted query frag then
    ((splitWsFields frag).foldl setAdd st.1, st.2)
  else
    (st.1, setAdd st.2 frag)

/-- Embeds `splitQueryIntoTerms` (src/search/background/utils.ts:186-206):
lower-case, split on double quotes, drop empty fragments, then route each
fragment by the `wasNotDoubleQuoted` heuristic either through a
whitespace split into the `terms` set or whole into the `phrases` set. -/
def splitQueryIntoTerms (query : JsStr) : SplitQueryResult :=
  let fragments := (splitOnChar dquote (jsToLower query)).filter (fun f => !f.isEmpty)
  let r := fragments.foldl (tokStep query) ([], [])
  ⟨r.1, r.2⟩

/-- Embeds `intersectResults` (src/search/background/utils.ts:80-86):
empty input yields the empty list, otherwise a fold filtering the first
set by membership in each further set. -/
def intersectResults (results : List (List JsStr)) : List JsStr :=
  match results with
  | [] => []
  | a :: rest => rest.foldl (fun acc b => acc.filter (fun x => decide (x ∈ b))) a

theorem mem_intersect_foldl (rest : List (List JsStr)) :
    ∀ (a : List JsStr) (x : JsStr),
      x ∈ rest.foldl (fun acc b => acc.filter (fun y => decide (y ∈ b))) a ↔
        x ∈ a ∧ ∀ b ∈ rest, x ∈ b := by
  induction rest with
  | nil => intro a x; simp
  | cons b bs ih =>
    intro a x
    simp only [List.foldl_cons, ih, List.mem_filter, decide_eq_true_eq, List.mem_cons]
    constructor
    · rintro ⟨⟨hxa, hxb⟩, hbs⟩
      refine ⟨hxa, fun c hc => ?_⟩
      rcases hc with rfl | hc
      · exact hxb
      · exact hbs c hc
    · rintro ⟨hxa, hall⟩
      exact ⟨⟨hxa, hall b (Or.inl rfl)⟩, fun c hc => hall c (Or.inr hc)⟩

theorem intersect_foldl_sublist (rest : List (List JsStr)) :
    ∀ a : List JsStr,
      (rest.foldl (fun acc b => acc.filter (fun y => decide (y ∈ b))) a).Sublist a := by
  induction rest with
  | nil => intro a; exact List.Sublist.refl a
  | cons b bs ih =>
    intro a
    exact (ih (a.filter (fun y => decide (y ∈ b)))).trans (List.filter_sublist a)

theorem tokFold_fst (query : JsStr) (frags : List JsStr) :
    ∀ st : List JsStr × List JsStr,
      (frags.foldl (tokStep query) st).1 =
        (((frags.filter (wasNotDoubleQuoted query)).map splitWsFields).flatten).foldl setAdd st.1 := by
  induction frags with
  | nil => intro st; rfl
  | cons frag fs ih =>
    intro st
    by_cases h : wasNotDoubleQuoted query frag
    · simp [tokStep, h, ih, List.foldl_append]
    · simp [tokStep, h, ih]

theorem tokFold_snd (query : JsStr) (frags : List JsStr) :
    ∀ st : List JsStr × List JsStr,
      (frags.foldl (tokStep query) st).2 =
        (frags.filter (fun f => !wasNotDoubleQuoted query f)).foldl setAdd st.2 := by
  induction frags with
  | nil => intro st; rfl
  | cons frag fs ih =>
    intro st
    by_cases h : wasNotDoubleQuoted query frag
    · simp [tokStep, h, ih]
    · simp [tokStep, h, ih]

/-- C2: `intersectResults` on zero sets returns the empty sequence; on one
or more sets its members are exactly the identifiers present in every
input set; the survivors form a subsequence of the first set (so they
originate from it in its order); a single set is returned unchanged. -/
theorem C2_intersect_basic :
    intersectResults [] = [] ∧
    (∀ (a : List JsStr) (rest : List (List JsStr)) (x : JsStr),
      x ∈ intersectResults (a :: rest) ↔ x ∈ a ∧ ∀ b ∈ rest, x ∈ b) ∧
    (∀ (a : List JsStr) (rest : List (List JsStr)),
      (intersectResults (a :: rest)).Sublist a) ∧
    (∀ a : List JsStr, intersectResults [a] = a) := by
  refine ⟨rfl, ?_, ?_, ?_⟩
  · intro a rest x; exact mem_intersect_foldl rest a x
  · intro a rest; exact intersect_foldl_sublist rest a
  · intro a; rfl

/-- C3: algebraic laws of `intersectResults`: content commutativity of
two-set intersection, idempotence on a duplicated set, and emptiness of
the result whenever at least one set is supplied and some set is empty. -/
theorem C3_intersect_laws :
    (∀ (A B : List JsStr) (x : JsStr),
      x ∈ intersectResults [A, B] ↔ x ∈ intersectResults [B, A]) ∧
    (∀ A : List JsStr, intersectResults [A, A] = A) ∧
    (∀ sets : List (List JsStr), sets ≠ [] → [] ∈ sets →
      intersectResults sets = []) := by
  refine ⟨?_, ?_, ?_⟩
  · intro A B x
    have h1 := mem_intersect_foldl [B] A x
    have h2 := mem_intersect_foldl [A] B x
    show x ∈ [B].foldl (fun acc b => acc.filter (fun y => decide (y ∈ b))) A ↔
      x ∈ [A].foldl (fun acc b => acc.filter (fun y => decide (y ∈ b))) B
    rw [h1, h2]
    simp only [List.mem_singleton, forall_eq]
    exact And.comm
  · intro A
    show A.filter (fun x => decide (x ∈ A)) = A
    exact List.filter_eq_self.mpr fun x hx => by simpa using hx
  · intro sets hne hmem
    match sets with
    | a :: rest =>
      rcases List.mem_cons.mp hmem with ha | hrest
      · cases ha
        exact List.sublist_nil.mp (intersect_foldl_sublist rest [])
      · refine List.eq_nil_iff_forall_not_mem.mpr fun x hx => ?_
        have := (mem_intersect_foldl rest a x).mp hx
        exact absurd (this.2 [] hrest) (List.not_mem_nil x)

/-- Witness for C3: intersecting the nonempty family consisting of the
singleton set containing the one-character identifier `a` together with
an empty set yields the empty result. -/
theorem C3_intersect_laws_witness :
    intersectResults [[['a']], []] = [] :=
  C3_intersect_laws.2.2 [[['a']], []] (by decide) (by decide)

/-- C4 counterexample: the query `Foo` contains no double-quote character,
so under the claim its single fragment should be whitespace-split into
the terms set; instead the code classifies the fragment `foo` as a phrase
(its trim is length-stable and, being lower-cased, it no longer equals
the original query), yielding empty terms and the phrase `foo`. -/
theorem C4_tokenizer_counterexample :
    (¬ dquote ∈ "Foo".toList) ∧
    splitQueryIntoTerms ("Foo".toList) = ⟨[], ["foo".toList]⟩ := by decide

/-- C4 amended: `splitQueryIntoTerms` lower-cases the query, splits it on
the double-quote character and drops empty fragments; a fragment is
whitespace-split into deduplicated terms exactly when the code's
`wasNotDoubleQuoted` marker holds (its trim changes its length, or it
equals the original query string verbatim); every other fragment is kept
whole as a deduplicated phrase. -/
theorem C4_tokenizer_amended (query : JsStr) :
    (splitQueryIntoTerms query).terms =
      dedupJs (((((splitOnChar dquote (jsToLower query)).filter (fun f => !f.isEmpty)).filter
        (wasNotDoubleQuoted query)).map splitWsFields).flatten) ∧
    (splitQueryIntoTerms query).phrases =
      dedupJs (((splitOnChar dquote (jsToLower query)).filter (fun f => !f.isEmpty)).filter
        (fun f => !wasNotDoubleQuoted query f)) := by
  constructor
  · exact tokFold_fst query _ ([], [])
  · exact tokFold_snd query _ ([], [])

/-- C5: concrete tokenizer instances: the query `foo "bar baz" qux`
yields terms `foo`, `qux` and the single phrase `bar baz`, and the empty
query yields two empty collections. -/
theorem C5_tokenizer_instances :
    splitQueryIntoTerms
        ("foo ".toList ++ [dquote] ++ "bar baz".toList ++ [dquote] ++ " qux".toList) =
      ⟨["foo".toList, "qux".toList], ["bar baz".toList]⟩ ∧
    splitQueryIntoTerms [] = ⟨[], []⟩ := by decide

/-- A visit row: page URL foreign key and epoch-millisecond time. -/
structure Visit where
  url : JsStr
  time : Nat
deriving DecidableEq

/-- A bookmark row: page URL foreign key and epoch-millisecond time. -/
structure Bookmark where
  url : JsStr
  time : Nat
deriving DecidableEq

/-- An annotation row: its own URL is the primary key, `pageUrl` the page
it belongs to, `lastEdited` its edit timestamp, optional comment and
highlighted-body texts, and the precomputed term indexes for both. -/
structure Annotation where
  url : JsStr
  pageUrl : JsStr
  lastEdited : Nat
  comment : Option JsStr
  body : Option JsStr
  bodyTerms : List JsStr
  commentTerms : List JsStr
deriving DecidableEq

/-- A page row: URL primary key, optional extracted body text, and the
precomputed body/URL/title term indexes. -/
structure Page where
  url : JsStr
  text : Option JsStr
  terms : List JsStr
  urlTerms : List JsStr
  titleTerms : List JsStr
deriving DecidableEq

/-- The local multi-collection store read by the search core. -/
structure Store where
  pages : List Page
  visits : List Visit
  bookmarks : List Bookmark
  annots : List Annotation
deriving DecidableEq

/-- Boolean prefix test on character lists (needle first). -/
def isPrefixList : JsStr → JsStr → Bool
  | [], _ => true
  | _ :: _, [] => false
  | c :: cs, d :: ds => c == d && isPrefixList cs ds

/-- Embeds JS `String.prototype.includes`: does `needle` occur as a
contiguous substring of `hay`? -/
def includesList (hay needle : JsStr) : Bool :=
  match hay with
  | [] => needle.isEmpty
  | _ :: rest => isPrefixList needle hay || includesList rest needle

/-- The substring relation, stated declaratively for specification use. -/
def IsSubstring (needle hay : JsStr) : Prop :=
  ∃ l r, hay = l ++ needle ++ r

/-- Match of one discrete term against an annotation's term indexes
(`_body_terms`/`_comment_terms` exact-equality Dexie lookup, unioned). -/
def annotMatchesTerm (term : JsStr) (a : Annotation) : Bool :=
  decide (term ∈ a.bodyTerms) || decide (term ∈ a.commentTerms)

/-- The per-term candidate id set of `queryAnnotationsByTerms`. -/
def annotTermCandidates (store : Store) (term : JsStr) : List JsStr :=
  (store.annots.filter (annotMatchesTerm term)).map (fun a => a.url)

/-- The phrase filter of `queryAnnotationsByTerms`
(src/search/background/utils.ts:105-118): case-insensitive substring
scan of the comment and, when present, the highlighted body. -/
def annotMatchesPhrase (phrase : JsStr) (a : Annotation) : Bool :=
  (match a.comment with
    | none => false
    | some c => includesList (jsToLower c) phrase)
  ||
  (match a.body with
    | none => false
    | some b => includesList (jsToLower b) phrase)

/-- The per-phrase candidate id set of `queryAnnotationsByTerms`. -/
def annotPhraseCandidates (store : Store) (phrase : JsStr) : List JsStr :=
  (store.annots.filter (annotMatchesPhrase phrase)).map (fun a => a.url)

/-- Match of one discrete term against a page's body/URL/title term
indexes: exact equality by default, prefix matching under the
`startsWithMatching` option. -/
def pageMatchesTerm (startsWithMatching : Bool) (term : JsStr) (p : Page) : Bool :=
  if startsWithMatching then
    p.terms.any (isPrefixList term) || p.urlTerms.any (isPrefixList term) ||
      p.titleTerms.any (isPrefixList term)
  else
    decide (term ∈ p.terms) || decide (term ∈ p.urlTerms) || decide (term ∈ p.titleTerms)

/-- The per-term candidate id set of `queryPagesByTerms`; the source
applies `.distinct()` to the or-query's primary keys. -/
def pageTermCandidates (startsWithMatching : Bool) (store : Store) (term : JsStr) : List JsStr :=
  dedupJs ((store.pages.filter (pageMatchesTerm startsWithMatching term)).map (fun p => p.url))

/-- The phrase filter of `queryPagesByTerms`
(src/search/background/utils.ts:152-158): case-insensitive substring
scan of the page's extracted body text. -/
def pageMatchesPhrase (phrase : JsStr) (p : Page) : Bool :=
  match p.text with
  | none => false
  | some t => includesList (jsToLower t) phrase

/-- The per-phrase candidate id set of `queryPagesByTerms`. -/
def pagePhraseCandidates (store : Store) (phrase : JsStr) : List JsStr :=
  (store.pages.filter (pageMatchesPhrase phrase)).map (fun p => p.url)

/-- Embeds `queryAnnotationsByTerms` (src/search/background/utils.ts:88-122):
per-term and per-phrase candidate id sets are intersected and the
surviving ids bulk-fetched from the annotations table (`bulkGet` yields
`undefined`, i.e. `none`, for an id with no row). -/
def queryAnnotationsByTerms (store : Store) (terms phrases : List JsStr) :
    List (Option Annotation) :=
  let resultsPerTerm :=
    terms.map (annotTermCandidates store) ++ phrases.map (annotPhraseCandidates store)
  let matchingIds := intersectResults resultsPerTerm
  matchingIds.map (fun i => store.annots.find? (fun a => a.url == i))

/-- Stable insertion of `x` into a list sorted descending by `key`:
placed before the first strictly smaller element, i.e. after every
element with a greater-or-equal key. -/
def insertByKeyDesc {α : Type} (key : α → Nat) (x : α) : List α → List α
  | [] => [x]
  | y :: ys => if key y < key x then x :: y :: ys else y :: insertByKeyDesc key x ys

/-- Stable sort descending by a `Nat` key (the unique stable sort, hence
a faithful embedding of JS `Array.prototype.sort` under a `bKey - aKey`
comparator, and of Dexie's `reverse().sortBy(...)` row ordering). -/
def sortByKeyDesc {α : Type} (key : α → Nat) (l : List α) : List α :=
  l.foldl (fun acc x => insertByKeyDesc key x acc) []

/-- One element of `queryPagesByTerms`' result: a page id with the
latest visit/bookmark timestamp resolved for it. -/
structure PageHit where
  id : JsStr
  latestTimestamp : Nat
deriving DecidableEq

/-- The `matchingIds` of `queryPagesByTerms`: intersection of the
per-term and per-phrase candidate id sets. -/
def pageQueryIds (startsWithMatching : Bool) (store : Store)
    (terms phrases : List JsStr) : List JsStr :=
  intersectResults
    (terms.map (pageTermCandidates startsWithMatching store) ++
      phrases.map (pagePhraseCandidates store))

/-- Embeds `trackLatestTimestamp` (src/search/background/utils.ts:164-168):
the JS `Map` is modelled as a total function carrying the `?? 0` default. -/
def trackRow (m : JsStr → Nat) (r : JsStr × Nat) : JsStr → Nat :=
  fun x => if x = r.1 then max r.2 (m r.1) else m x

/-- The `latestTimestampByPageUrl` map of `queryPagesByTerms` after both
`visits.forEach` and `bookmarks.forEach`: visits and bookmarks of the
given ids are fetched time-descending (`reverse().sortBy('time')`) as
`(url, time)` rows and folded through `trackRow`. -/
def latestMap (store : Store) (ids : List JsStr) : JsStr → Nat :=
  (sortByKeyDesc Prod.snd
      ((store.bookmarks.filter (fun b => decide (b.url ∈ ids))).map
        (fun b => (b.url, b.time)))).foldl trackRow
    ((sortByKeyDesc Prod.snd
        ((store.visits.filter (fun v => decide (v.url ∈ ids))).map
          (fun v => (v.url, v.time)))).foldl trackRow (fun _ => 0))

/-- Embeds `queryPagesByTerms` (src/search/background/utils.ts:124-184):
term/phrase candidate sets are intersected and each surviving id is
returned with its resolved latest visit/bookmark timestamp. -/
def queryPagesByTerms (startsWithMatching : Bool) (store : Store)
    (terms phrases : List JsStr) : List PageHit :=
  let matchingIds := pageQueryIds startsWithMatching store terms phrases
  matchingIds.map (fun i => ⟨i, latestMap store matchingIds i⟩)

theorem isPrefixList_iff : ∀ needle hay : JsStr,
    isPrefixList needle hay = true ↔ ∃ r, hay = needle ++ r := by
  intro needle
  induction needle with
  | nil => intro hay; exact ⟨fun _ => ⟨hay, rfl⟩, fun _ => rfl⟩
  | cons c cs ih =>
    intro hay
    cases hay with
    | nil => simp [isPrefixList]
    | cons d ds =>
      simp only [isPrefixList, Bool.and_eq_true, beq_iff_eq, ih, List.cons_append,
        List.cons.injEq]
      constructor
      · rintro ⟨rfl, r, rfl⟩; exact ⟨r, rfl, rfl⟩
      · rintro ⟨r, rfl, rfl⟩; exact ⟨rfl, r, rfl⟩

theorem includesList_iff : ∀ hay needle : JsStr,
    includesList hay needle = true ↔ IsSubstring needle hay := by
  intro hay
  induction hay with
  | nil =>
    intro needle
    simp only [includesList, List.isEmpty_iff, IsSubstring]
    constructor
    · rintro rfl; exact ⟨[], [], rfl⟩
    · rintro ⟨l, r, h⟩
      exact (List.append_eq_nil.mp (List.append_eq_nil.mp h.symm).1).2
  | cons c rest ih =>
    intro needle
    simp only [includesList, Bool.or_eq_true, isPrefixList_iff, ih, IsSubstring]
    constructor
    · rintro (⟨r, hr⟩ | ⟨l, r, hr⟩)
      · exact ⟨[], r, by simpa using hr⟩
      · exact ⟨c :: l, r, by simp [hr]⟩
    · rintro ⟨l, r, hr⟩
      cases l with
      | nil => exact Or.inl ⟨r, by simpa using hr⟩
      | cons d l' =>
        have h3 := hr
        simp only [List.cons_append, List.cons.injEq] at h3
        exact Or.inr ⟨l', r, by simpa using h3.2⟩

theorem annotMatchesPhrase_iff (phrase : JsStr) (a : Annotation) :
    annotMatchesPhrase phrase a = true ↔
      (∃ c, a.comment = some c ∧ IsSubstring phrase (jsToLower c)) ∨
      (∃ b, a.body = some b ∧ IsSubstring phrase (jsToLower b)) := by
  unfold annotMatchesPhrase
  rcases hc : a.comment with - | c <;> rcases hb : a.body with - | b <;>
    simp [includesList_iff]

theorem pageMatchesPhrase_iff (phrase : JsStr) (p : Page) :
    pageMatchesPhrase phrase p = true ↔
      ∃ t, p.text = some t ∧ IsSubstring phrase (jsToLower t) := by
  unfold pageMatchesPhrase
  rcases ht : p.text with - | t <;> simp [includesList_iff]

/-- C7: the per-phrase candidate sets are substring scans of the raw text
fields: an id is an annotation candidate for a phrase iff some annotation
row with that id has the phrase as a substring of its lower-cased comment
or highlighted body, and a page candidate iff some page row with that id
has it as a substring of its lower-cased body text. -/
theorem C7_phrase_scan (store : Store) (phrase : JsStr) :
    (∀ i : JsStr, i ∈ annotPhraseCandidates store phrase ↔
      ∃ a ∈ store.annots, a.url = i ∧
        ((∃ c, a.comment = some c ∧ IsSubstring phrase (jsToLower c)) ∨
         (∃ b, a.body = some b ∧ IsSubstring phrase (jsToLower b)))) ∧
    (∀ i : JsStr, i ∈ pagePhraseCandidates store phrase ↔
      ∃ p ∈ store.pages, p.url = i ∧
        ∃ t, p.text = some t ∧ IsSubstring phrase (jsToLower t)) := by
  constructor
  · intro i
    simp only [annotPhraseCandidates, List.mem_map, List.mem_filter,
      annotMatchesPhrase_iff]
    constructor
    · rintro ⟨a, ⟨ha, hm⟩, rfl⟩; exact ⟨a, ha, rfl, hm⟩
    · rintro ⟨a, ha, rfl, hm⟩; exact ⟨a, ⟨ha, hm⟩, rfl⟩
  · intro i
    simp only [pagePhraseCandidates, List.mem_map, List.mem_filter,
      pageMatchesPhrase_iff]
    constructor
    · rintro ⟨p, ⟨hp, hm⟩, rfl⟩; exact ⟨p, hp, rfl, hm⟩
    · rintro ⟨p, hp, rfl, hm⟩; exact ⟨p, ⟨hp, hm⟩, rfl⟩

theorem insertByKeyDesc_perm {α : Type} (key : α → Nat) (x : α) (l : List α) :
    (insertByKeyDesc key x l).Perm (x :: l) := by
  induction l with
  | nil => exact List.Perm.refl _
  | cons y ys ih =>
    unfold insertByKeyDesc
    by_cases h : key y < key x
    · simp [h]
    · rw [if_neg h]
      exact (ih.cons y).trans (List.Perm.swap x y ys)

theorem sortByKeyDesc_foldl_perm {α : Type} (key : α → Nat) (l : List α) :
    ∀ acc : List α,
      (l.foldl (fun acc x => insertByKeyDesc key x acc) acc).Perm (acc ++ l) := by
  induction l with
  | nil => intro acc; simp
  | cons x xs ih =>
    intro acc
    have h1 := ih (insertByKeyDesc key x acc)
    have h2 : (insertByKeyDesc key x acc ++ xs).Perm (acc ++ x :: xs) :=
      ((insertByKeyDesc_perm key x acc).append_right xs).trans
        List.perm_middle.symm
    simpa using h1.trans h2

theorem sortByKeyDesc_perm {α : Type} (key : α → Nat) (l : List α) :
    (sortByKeyDesc key l).Perm l := by
  simpa [sortByKeyDesc] using sortByKeyDesc_foldl_perm key l []

theorem mem_insertByKeyDesc {α : Type} (key : α → Nat) (x z : α) (l : List α) :
    z ∈ insertByKeyDesc key x l ↔ z = x ∨ z ∈ l := by
  rw [(insertByKeyDesc_perm key x l).mem_iff, List.mem_cons]

theorem insertByKeyDesc_pairwise {α : Type} (key : α → Nat) (x : α) (l : List α)
    (h : l.Pairwise (fun a b => key b ≤ key a)) :
    (insertByKeyDesc key x l).Pairwise (fun a b => key b ≤ key a) := by
  induction l with
  | nil => simp [insertByKeyDesc]
  | cons y ys ih =>
    rcases List.pairwise_cons.mp h with ⟨hy, hys⟩
    unfold insertByKeyDesc
    by_cases hk : key y < key x
    · simp only [if_pos hk]
      refine List.pairwise_cons.mpr ⟨?_, h⟩
      intro z hz
      rcases List.mem_cons.mp hz with rfl | hz
      · exact le_of_lt hk
      · exact (hy z hz).trans (le_of_lt hk)
    · simp only [if_neg hk]
      refine List.pairwise_cons.mpr ⟨?_, ih hys⟩
      intro z hz
      rcases (mem_insertByKeyDesc key x z ys).mp hz with rfl | hz
      · exact Nat.le_of_not_lt hk
      · exact hy z hz

theorem sortByKeyDesc_foldl_pairwise {α : Type} (key : α → Nat) (l : List α) :
    ∀ acc : List α, acc.Pairwise (fun a b => key b ≤ key a) →
      (l.foldl (fun acc x => insertByKeyDesc key x acc) acc).Pairwise
        (fun a b => key b ≤ key a) := by
  induction l with
  | nil => intro acc hacc; simpa using hacc
  | cons x xs ih =>
    intro acc hacc
    exact ih (insertByKeyDesc key x acc) (insertByKeyDesc_pairwise key x acc hacc)

theorem sortByKeyDesc_pairwise {α : Type} (key : α → Nat) (l : List α) :
    (sortByKeyDesc key l).Pairwise (fun a b => key b ≤ key a) :=
  sortByKeyDesc_foldl_pairwise key l [] (List.Pairwise.nil)

theorem filter_insertByKeyDesc {α : Type} (key : α → Nat) (k : Nat) (x : α)
    (l : List α) (h : l.Pairwise (fun a b => key b ≤ key a)) :
    (insertByKeyDesc key x l).filter (fun z => decide (key z = k)) =
      if key x = k then l.filter (fun z => decide (key z = k)) ++ [x]
      else l.filter (fun z => decide (key z = k)) := by
  induction l with
  | nil =>
    by_cases hx : key x = k <;> simp [insertByKeyDesc, List.filter_cons, hx]
  | cons y ys ih =>
    rcases List.pairwise_cons.mp h with ⟨hy, hys⟩
    unfold insertByKeyDesc
    by_cases hk : key y < key x
    · simp only [if_pos hk]
      by_cases hx : key x = k
      · have hnil : (y :: ys).filter (fun z => decide (key z = k)) = [] := by
          refine List.filter_eq_nil_iff.mpr fun z hz => ?_
          simp only [decide_eq_true_eq]
          rcases List.mem_cons.mp hz with rfl | hz
          · omega
          · have := hy z hz; omega
        rw [if_pos hx, List.filter_cons_of_pos (by simp [hx]), hnil]
        simp
      · rw [if_neg hx, List.filter_cons_of_neg (by simp [hx])]
    · simp only [if_neg hk]
      by_cases hyk : key y = k <;> by_cases hx : key x = k <;>
        simp [List.filter_cons, hyk, hx, ih hys]

theorem sortByKeyDesc_foldl_filter {α : Type} (key : α → Nat) (k : Nat)
    (l : List α) : ∀ acc : List α, acc.Pairwise (fun a b => key b ≤ key a) →
      (l.foldl (fun acc x => insertByKeyDesc key x acc) acc).filter
          (fun z => decide (key z = k)) =
        acc.filter (fun z => decide (key z = k)) ++
          l.filter (fun z => decide (key z = k)) := by
  induction l with
  | nil => intro acc hacc; simp
  | cons x xs ih =>
    intro acc hacc
    rw [List.foldl_cons, ih (insertByKeyDesc key x acc)
      (insertByKeyDesc_pairwise key x acc hacc),
      filter_insertByKeyDesc key k x acc hacc]
    by_cases hx : key x = k <;> simp [List.filter_cons, hx]

/-- Stability of `sortByKeyDesc`: elements sharing a key keep their
relative input order. -/
theorem sortByKeyDesc_filter {α : Type} (key : α → Nat) (k : Nat) (l : List α) :
    (sortByKeyDesc key l).filter (fun z => decide (key z = k)) =
      l.filter (fun z => decide (key z = k)) := by
  simpa [sortByKeyDesc] using sortByKeyDesc_foldl_filter key k l [] List.Pairwise.nil

theorem foldr_max_perm {l l' : List Nat} (h : l.Perm l') :
    l.foldr max 0 = l'.foldr max 0 := by
  induction h with
  | nil => rfl
  | cons x _ ih => simp [List.foldr_cons, ih]
  | swap x y l =>
    simp only [List.foldr_cons, ← Nat.max_assoc]
    rw [Nat.max_comm y x]
  | trans _ _ ih1 ih2 => rw [ih1, ih2]

theorem foldr_max_init (l : List Nat) (b : Nat) :
    l.foldr max b = max (l.foldr max 0) b := by
  induction l with
  | nil => simp
  | cons x xs ih => simp [List.foldr_cons, ih, Nat.max_assoc]

theorem trackRow_foldl (rows : List (JsStr × Nat)) :
    ∀ (m : JsStr → Nat) (i : JsStr),
      (rows.foldl trackRow m) i =
        max (m i) (((rows.filter (fun r => decide (r.1 = i))).map Prod.snd).foldr max 0) := by
  induction rows with
  | nil => intro m i; simp
  | cons r rs ih =>
    intro m i
    rw [List.foldl_cons, ih (trackRow m r) i]
    by_cases h : r.1 = i
    · rw [List.filter_cons_of_pos (by simp [h]), List.map_cons, List.foldr_cons]
      have hv : trackRow m r i = max r.2 (m i) := by
        simp only [trackRow]
        rw [if_pos h.symm, h]
      rw [hv, Nat.max_comm r.2 (m i), Nat.max_assoc]
    · rw [List.filter_cons_of_neg (by simp [h])]
      have hv : trackRow m r i = m i := by
        simp only [trackRow]
        rw [if_neg (fun hh => h hh.symm)]
      rw [hv]

/-- The max of visit/bookmark times of the rows belonging to one page id
(`0` when there are none): the specification-side value of
`latestTimestamp`. -/
def latestVisitBookmarkTime (store : Store) (i : JsStr) : Nat :=
  (((store.visits.filter (fun v => decide (v.url = i))).map Visit.time) ++
    ((store.bookmarks.filter (fun b => decide (b.url = i))).map Bookmark.time)).foldr max 0

theorem latestMap_eq (store : Store) (ids : List JsStr) (i : JsStr) (hi : i ∈ ids) :
    latestMap store ids i = latestVisitBookmarkTime store i := by
  unfold latestMap
  rw [trackRow_foldl, trackRow_foldl]
  have visits_eq :
      ((((sortByKeyDesc Prod.snd
          ((store.visits.filter (fun v => decide (v.url ∈ ids))).map
            (fun v => (v.url, v.time)))).filter (fun r => decide (r.1 = i))).map
              Prod.snd).foldr max 0 : Nat) =
      ((store.visits.filter (fun v => decide (v.url = i))).map Visit.time).foldr max 0 := by
    have hperm := (sortByKeyDesc_perm Prod.snd
      ((store.visits.filter (fun v => decide (v.url ∈ ids))).map (fun v => (v.url, v.time))))
    have hperm2 := (hperm.filter (fun r => decide (r.1 = i))).map Prod.snd
    rw [foldr_max_perm hperm2]
    rw [List.filter_map, List.map_map]
    have hff : (store.visits.filter (fun v => decide (v.url ∈ ids))).filter
        (fun v => decide (v.url = i)) = store.visits.filter (fun v => decide (v.url = i)) := by
      rw [List.filter_filter]
      refine List.filter_congr fun v _ => ?_
      by_cases hv : v.url = i
      · simp [hv, hi]
      · simp [hv]
    simp only [Function.comp_def]
    rw [hff]
  have bookmarks_eq :
      ((((sortByKeyDesc Prod.snd
          ((store.bookmarks.filter (fun b => decide (b.url ∈ ids))).map
            (fun b => (b.url, b.time)))).filter (fun r => decide (r.1 = i))).map
              Prod.snd).foldr max 0 : Nat) =
      ((store.bookmarks.filter (fun b => decide (b.url = i))).map Bookmark.time).foldr max 0 := by
    have hperm := (sortByKeyDesc_perm Prod.snd
      ((store.bookmarks.filter (fun b => decide (b.url ∈ ids))).map (fun b => (b.url, b.time))))
    have hperm2 := (hperm.filter (fun r => decide (r.1 = i))).map Prod.snd
    rw [foldr_max_perm hperm2]
    rw [List.filter_map, List.map_map]
    have hff : (store.bookmarks.filter (fun b => decide (b.url ∈ ids))).filter
        (fun b => decide (b.url = i)) = store.bookmarks.filter (fun b => decide (b.url = i)) := by
      rw [List.filter_filter]
      refine List.filter_congr fun b _ => ?_
      by_cases hb : b.url = i
      · simp [hb, hi]
      · simp [hb]
    simp only [Function.comp_def]
    rw [hff]
  rw [visits_eq, bookmarks_eq, latestVisitBookmarkTime, List.foldr_append,
    foldr_max_init ((store.visits.filter (fun v => decide (v.url = i))).map Visit.time)
      (((store.bookmarks.filter (fun b => decide (b.url = i))).map Bookmark.time).foldr max 0)]
  simp [Nat.max_comm]

/-- C6: every element of `queryPagesByTerms`' result pairs a surviving
page id with the maximum `time` over all visit and bookmark rows whose
URL equals that id, the maximum being 0 when the page has no such rows. -/
theorem C6_page_latest_timestamp (startsWithMatching : Bool) (store : Store)
    (terms phrases : List JsStr) (hit : PageHit)
    (hmem : hit ∈ queryPagesByTerms startsWithMatching store terms phrases) :
    hit.latestTimestamp = latestVisitBookmarkTime store hit.id := by
  simp only [queryPagesByTerms, List.mem_map] at hmem
  obtain ⟨i, hi, rfl⟩ := hmem
  exact latestMap_eq store _ i hi

/-- Witness for C6: a store with one page matched by the term `t`, one
visit at time 7 and one bookmark at time 9 yields latest timestamp 9. -/
theorem C6_page_latest_timestamp_witness :
    (⟨"p".toList, 9⟩ : PageHit).latestTimestamp =
      latestVisitBookmarkTime
        ⟨[⟨"p".toList, none, ["t".toList], [], []⟩], [⟨"p".toList, 7⟩],
          [⟨"p".toList, 9⟩], []⟩ "p".toList :=
  C6_page_latest_timestamp false
    ⟨[⟨"p".toList, none, ["t".toList], [], []⟩], [⟨"p".toList, 7⟩],
      [⟨"p".toList, 9⟩], []⟩
    ["t".toList] [] ⟨"p".toList, 9⟩ (by decide)

/-- Milliseconds per day, the pagination window unit. -/
def DAY_MS : Nat := 86400000

/-- Parameters of a blank-search call; `fromWhen` defaults to 0. -/
structure BlankSearchParams where
  fromWhen : Nat := 0
  untilWhen : Nat
  daysToSearch : Nat
deriving DecidableEq

/-- A per-page result entry: the page-level latest visit/bookmark
timestamp and the matching annotation rows (kept `lastEdited`-descending). -/
structure PageResultEntry where
  latestPageTimestamp : Nat
  annotations : List Annotation
deriving DecidableEq

/-- A blank-search result: the per-page aggregation plus the exhaustion flag. -/
structure UnifiedBlankSearchResult where
  resultDataByPage : List (JsStr × PageResultEntry)
  resultsExhausted : Bool
deriving DecidableEq

/-- Modelled from the spec: the blank-search window lower bound of
spec.md §4.5 step 1, `untilWhen - daysToSearch*86400000` clamped to not
go below `fromWhen` (the `unifiedBlankSearch` implementation is absent
from the sources; only its tests are present). -/
def windowLowerBound (p : BlankSearchParams) : Nat :=
  max (p.untilWhen - p.daysToSearch * DAY_MS) p.fromWhen

/-- Membership of a timestamp in the current window `[windowLowerBound, untilWhen)`. -/
def inWindow (p : BlankSearchParams) (t : Nat) : Bool :=
  decide (windowLowerBound p ≤ t) && decide (t < p.untilWhen)

/-- Update-or-insert into the per-page aggregation map (insertion-ordered,
new pages appended; a fresh entry starts at timestamp 0 with no
annotation rows, as JS `Map.set` insertion order prescribes). -/
def upsertEntry (k : JsStr) (f : PageResultEntry → PageResultEntry) :
    List (JsStr × PageResultEntry) → List (JsStr × PageResultEntry)
  | [] => [(k, f ⟨0, []⟩)]
  | (k', e) :: rest =>
    if k' = k then (k', f e) :: rest else (k', e) :: upsertEntry k f rest

/-- Modelled from the spec: aggregation of one in-window visit
(spec.md §4.5 step 3) — raise the page's activity timestamp to that
row's time. -/
def visitStep (m : List (JsStr × PageResultEntry)) (v : Visit) :
    List (JsStr × PageResultEntry) :=
  upsertEntry v.url (fun e => ⟨max v.time e.latestPageTimestamp, e.annotations⟩) m

/-- Modelled from the spec: aggregation of one in-window bookmark
(spec.md §4.5 step 3). -/
def bookmarkStep (m : List (JsStr × PageResultEntry)) (b : Bookmark) :
    List (JsStr × PageResultEntry) :=
  upsertEntry b.url (fun e => ⟨max b.time e.latestPageTimestamp, e.annotations⟩) m

/-- Modelled from the spec: aggregation of one in-window annotation
(spec.md §4.5 step 3) — inserted so the page's list stays sorted by
`lastEdited` descending. -/
def annotStep (m : List (JsStr × PageResultEntry)) (a : Annotation) :
    List (JsStr × PageResultEntry) :=
  upsertEntry a.pageUrl
    (fun e => ⟨e.latestPageTimestamp,
      insertByKeyDesc (fun x => x.lastEdited) a e.annotations⟩) m

/-- Is there any store row whose relevant timestamp lies in
`[fromWhen, windowLowerBound)`, i.e. older data still unvisited below
the current window? -/
def hasOlderData (store : Store) (p : BlankSearchParams) : Bool :=
  store.visits.any (fun v =>
    decide (p.fromWhen ≤ v.time) && decide (v.time < windowLowerBound p)) ||
  store.bookmarks.any (fun b =>
    decide (p.fromWhen ≤ b.time) && decide (b.time < windowLowerBound p)) ||
  store.annots.any (fun a =>
    decide (p.fromWhen ≤ a.lastEdited) && decide (a.lastEdited < windowLowerBound p))

/-- Modelled from the spec: `unifiedBlankSearch` (its implementation is
not among the sources; only its tests are), reconstructed from
spec.md §4.5: one `[windowLowerBound, untilWhen)` window of visits,
bookmarks and annotations is aggregated per page, and per §4.5 step 4
together with §7's empty-store clause ("returns … `resultsExhausted=true`
when the store has no data at or below the requested bound") and the
§3 invariant ("no further older data exists"), `resultsExhausted` is set
when the window reached `fromWhen` or no older row remains below it —
matching the empty-store and paginated expectations of the tests. -/
def unifiedBlankSearch (store : Store) (p : BlankSearchParams) :
    UnifiedBlankSearchResult :=
  let m1 := (store.visits.filter (fun v => inWindow p v.time)).foldl visitStep []
  let m2 := (store.bookmarks.filter (fun b => inWindow p b.time)).foldl bookmarkStep m1
  let m3 := (store.annots.filter (fun a => inWindow p a.lastEdited)).foldl annotStep m2
  ⟨m3, decide (windowLowerBound p ≤ p.fromWhen) || !hasOlderData store p⟩

/-- The `annotations[0]?.lastEdited.valueOf() ?? 0` access of
`sortUnifiedBlankSearchResult`. -/
def annotsHeadLastEdited : List Annotation → Nat
  | [] => 0
  | a :: _ => a.lastEdited

/-- The comparator key of `sortUnifiedBlankSearchResult`
(src/search/background/utils.ts:69-76). -/
def blankEntryKey (e : PageResultEntry) : Nat :=
  max e.latestPageTimestamp (annotsHeadLastEdited e.annotations)

/-- Embeds `sortUnifiedBlankSearchResult`
(src/search/background/utils.ts:64-77): the `(pageId, entry)` pairs
sorted by the comparator `bKey - aKey`, i.e. descending by
`blankEntryKey`; JS `Array.prototype.sort` is a stable sort, embedded
here as the (unique) stable descending sort. -/
def sortUnifiedBlankSearchResult (resultDataByPage : List (JsStr × PageResultEntry)) :
    List (JsStr × PageResultEntry) :=
  sortByKeyDesc (fun pr => blankEntryKey pr.2) resultDataByPage

/-- The call `[...resultDataByPage].sort(...)` with its aliasing made
explicit: the spread copies the argument array and `sort` mutates only
that copy, so the call returns the sorted copy together with the
argument's (unchanged) post-call contents. -/
def sortUnifiedBlankSearchResultEff (resultDataByPage : List (JsStr × PageResultEntry)) :
    List (JsStr × PageResultEntry) × List (JsStr × PageResultEntry) :=
  (sortUnifiedBlankSearchResult resultDataByPage, resultDataByPage)

/-- The maximum `lastEdited` over a list of annotation rows (0 when empty). -/
def annotsMaxLastEdited (l : List Annotation) : Nat :=
  l.foldr (fun a m => max a.lastEdited m) 0

/-- The activity timestamp of an entry: max of its page-level
visit/bookmark timestamp and its newest matching annotation's edit time. -/
def activityTimestamp (e : PageResultEntry) : Nat :=
  max e.latestPageTimestamp (annotsMaxLastEdited e.annotations)

/-- Some store row's relevant timestamp lies in `[lo, hi)`. -/
def StoreHasTimeIn (store : Store) (lo hi : Nat) : Prop :=
  (∃ v ∈ store.visits, lo ≤ v.time ∧ v.time < hi) ∨
  (∃ b ∈ store.bookmarks, lo ≤ b.time ∧ b.time < hi) ∨
  (∃ a ∈ store.annots, lo ≤ a.lastEdited ∧ a.lastEdited < hi)

/-- C1 counterexample: on an empty store, a call with
`untilWhen = 2·DAY_MS`, `daysToSearch = 1`, `fromWhen = 0` reports
`resultsExhausted = true` although its window lower bound (one day's
worth of milliseconds) is not ≤ `fromWhen`, refuting the claimed
"true iff windowLowerBound ≤ fromWhen" — the src empty-store test
(content-scripts/background/index.ts:78-90) demands exactly this `true`. -/
theorem C1_exhaustion_counterexample :
    (unifiedBlankSearch ⟨[], [], [], []⟩
        { fromWhen := 0, untilWhen := 2 * DAY_MS, daysToSearch := 1 }).resultsExhausted
      = true ∧
    ¬ (windowLowerBound { fromWhen := 0, untilWhen := 2 * DAY_MS, daysToSearch := 1 }
        ≤ 0) := by
  constructor
  · rfl
  · decide

/-- C1 amended: `resultsExhausted` is true iff the window lower bound
(`untilWhen - daysToSearch·86400000` clamped to `fromWhen`) is ≤
`fromWhen` or no visit/bookmark/annotation timestamp remains in
`[fromWhen, windowLowerBound)` — in particular it is true on an empty
store even when the window lower bound is far above `fromWhen`. -/
theorem C1_exhaustion_amended (store : Store) (p : BlankSearchParams) :
    (unifiedBlankSearch store p).resultsExhausted = true ↔
      (windowLowerBound p ≤ p.fromWhen ∨
        ¬ StoreHasTimeIn store p.fromWhen (windowLowerBound p)) := by
  have hod : hasOlderData store p = true ↔
      StoreHasTimeIn store p.fromWhen (windowLowerBound p) := by
    simp only [hasOlderData, StoreHasTimeIn, List.any_eq_true, Bool.or_eq_true,
      Bool.and_eq_true, decide_eq_true_eq]
    exact or_assoc
  show (decide (windowLowerBound p ≤ p.fromWhen) || !hasOlderData store p) = true ↔ _
  cases h : hasOlderData store p with
  | false =>
    have hsh : ¬ StoreHasTimeIn store p.fromWhen (windowLowerBound p) := fun hs => by
      rw [hod.mpr hs] at h
      cases h
    simp [hsh]
  | true =>
    have hsh := hod.mp h
    simp only [Bool.not_true, Bool.or_false, decide_eq_true_eq]
    exact ⟨fun hle => Or.inl hle, fun hor => hor.resolve_right fun hn => hn hsh⟩

/-- The invariant C9 asserts of each aggregated entry, relative to its key. -/
def EntryOkAt (k : JsStr) (e : PageResultEntry) : Prop :=
  (∀ a ∈ e.annotations, a.pageUrl = k) ∧
  e.annotations.Pairwise (fun a b => b.lastEdited ≤ a.lastEdited)

theorem upsertEntry_inv (k : JsStr) (f : PageResultEntry → PageResultEntry)
    (hf : ∀ e, EntryOkAt k e → EntryOkAt k (f e))
    (hd : EntryOkAt k (f ⟨0, []⟩)) :
    ∀ m : List (JsStr × PageResultEntry), (∀ pr ∈ m, EntryOkAt pr.1 pr.2) →
      ∀ pr ∈ upsertEntry k f m, EntryOkAt pr.1 pr.2 := by
  intro m
  induction m with
  | nil =>
    intro _ pr hpr
    rcases List.mem_singleton.mp hpr with rfl
    exact hd
  | cons he rest ih =>
    obtain ⟨k', e⟩ := he
    intro hm pr hpr
    by_cases hk : k' = k
    · simp only [upsertEntry, if_pos hk] at hpr
      rcases List.mem_cons.mp hpr with rfl | hpr
      · subst hk
        exact hf e (hm (k', e) (List.mem_cons_self _ _))
      · exact hm pr (List.mem_cons_of_mem _ hpr)
    · simp only [upsertEntry, if_neg hk] at hpr
      rcases List.mem_cons.mp hpr with rfl | hpr
      · exact hm (k', e) (List.mem_cons_self _ _)
      · exact ih (fun q hq => hm q (List.mem_cons_of_mem _ hq)) pr hpr

theorem foldl_entry_inv {β : Type} (step : List (JsStr × PageResultEntry) → β →
      List (JsStr × PageResultEntry))
    (hstep : ∀ m b, (∀ pr ∈ m, EntryOkAt pr.1 pr.2) →
      ∀ pr ∈ step m b, EntryOkAt pr.1 pr.2) :
    ∀ (rows : List β) (m : List (JsStr × PageResultEntry)),
      (∀ pr ∈ m, EntryOkAt pr.1 pr.2) →
      ∀ pr ∈ rows.foldl step m, EntryOkAt pr.1 pr.2 := by
  intro rows
  induction rows with
  | nil => intro m hm; exact hm
  | cons r rs ih => intro m hm; exact ih (step m r) (hstep m r hm)

theorem visitStep_inv (m : List (JsStr × PageResultEntry)) (v : Visit)
    (hm : ∀ pr ∈ m, EntryOkAt pr.1 pr.2) :
    ∀ pr ∈ visitStep m v, EntryOkAt pr.1 pr.2 := by
  unfold visitStep
  refine upsertEntry_inv _ _ ?hf ?hd m hm
  case hf => intro e he; exact ⟨he.1, he.2⟩
  case hd => exact ⟨fun a ha => absurd ha (List.not_mem_nil a), List.Pairwise.nil⟩

theorem bookmarkStep_inv (m : List (JsStr × PageResultEntry)) (b : Bookmark)
    (hm : ∀ pr ∈ m, EntryOkAt pr.1 pr.2) :
    ∀ pr ∈ bookmarkStep m b, EntryOkAt pr.1 pr.2 := by
  unfold bookmarkStep
  refine upsertEntry_inv _ _ ?hf ?hd m hm
  case hf => intro e he; exact ⟨he.1, he.2⟩
  case hd => exact ⟨fun a ha => absurd ha (List.not_mem_nil a), List.Pairwise.nil⟩

theorem annotStep_inv (m : List (JsStr × PageResultEntry)) (a : Annotation)
    (hm : ∀ pr ∈ m, EntryOkAt pr.1 pr.2) :
    ∀ pr ∈ annotStep m a, EntryOkAt pr.1 pr.2 := by
  unfold annotStep
  refine upsertEntry_inv _ _ ?hf ?hd m hm
  case hf =>
    intro e he
    constructor
    · intro x hx
      rcases (mem_insertByKeyDesc (fun y => y.lastEdited) a x e.annotations).mp hx with
        rfl | hx
      · rfl
      · exact he.1 x hx
    · exact insertByKeyDesc_pairwise (fun y => y.lastEdited) a e.annotations he.2
  case hd =>
    constructor
    · intro x hx
      rcases (mem_insertByKeyDesc (fun y => y.lastEdited) a x []).mp hx with rfl | hx
      · rfl
      · exact absurd hx (List.not_mem_nil x)
    · exact insertByKeyDesc_pairwise (fun y => y.lastEdited) a [] List.Pairwise.nil

/-- C9: every entry of a blank-search result lists only annotations whose
page identifier equals the entry's key, ordered by `lastEdited`
descending (so its head, if any, is the newest matching annotation). -/
theorem C9_entry_invariant (store : Store) (p : BlankSearchParams)
    (pr : JsStr × PageResultEntry)
    (h : pr ∈ (unifiedBlankSearch store p).resultDataByPage) :
    (∀ a ∈ pr.2.annotations, a.pageUrl = pr.1) ∧
    pr.2.annotations.Pairwise (fun a b => b.lastEdited ≤ a.lastEdited) := by
  have h1 := foldl_entry_inv visitStep visitStep_inv
    (store.visits.filter (fun v => inWindow p v.time)) []
    (fun q hq => absurd hq (List.not_mem_nil q))
  have h2 := foldl_entry_inv bookmarkStep bookmarkStep_inv
    (store.bookmarks.filter (fun b => inWindow p b.time)) _ h1
  have h3 := foldl_entry_inv annotStep annotStep_inv
    (store.annots.filter (fun a => inWindow p a.lastEdited)) _ h2
  exact h3 pr h

/-- Witness for C9: a store holding the single annotation `a1` on page
`p1` (edit time 5) searched over `[0, 10)` yields the entry for `p1`
whose list contains exactly that annotation, trivially ordered. -/
theorem C9_entry_invariant_witness :
    (∀ a ∈ (("p1".toList,
        (⟨0, [⟨"a1".toList, "p1".toList, 5, none, none, [], []⟩]⟩ : PageResultEntry)) :
          JsStr × PageResultEntry).2.annotations,
      a.pageUrl = "p1".toList) ∧
    List.Pairwise (fun a b => b.lastEdited ≤ a.lastEdited)
      ((⟨0, [⟨"a1".toList, "p1".toList, 5, none, none, [], []⟩]⟩ :
        PageResultEntry)).annotations :=
  C9_entry_invariant
    ⟨[], [], [], [⟨"a1".toList, "p1".toList, 5, none, none, [], []⟩]⟩
    { fromWhen := 0, untilWhen := 10, daysToSearch := 1 }
    ("p1".toList, ⟨0, [⟨"a1".toList, "p1".toList, 5, none, none, [], []⟩]⟩)
    (by decide)

theorem annotsMaxLastEdited_le (l : List Annotation) (c : Nat)
    (h : ∀ x ∈ l, x.lastEdited ≤ c) : annotsMaxLastEdited l ≤ c := by
  induction l with
  | nil => exact Nat.zero_le c
  | cons a rest ih =>
    simp only [annotsMaxLastEdited, List.foldr_cons]
    exact Nat.max_le.mpr ⟨h a (List.mem_cons_self _ _),
      ih fun x hx => h x (List.mem_cons_of_mem _ hx)⟩

theorem annotsHead_eq_max (l : List Annotation)
    (h : l.Pairwise (fun a b => b.lastEdited ≤ a.lastEdited)) :
    annotsHeadLastEdited l = annotsMaxLastEdited l := by
  cases l with
  | nil => rfl
  | cons a rest =>
    rcases List.pairwise_cons.mp h with ⟨ha, -⟩
    have : annotsMaxLastEdited rest ≤ a.lastEdited := annotsMaxLastEdited_le rest _ ha
    simp only [annotsHeadLastEdited, annotsMaxLastEdited, List.foldr_cons]
    have := Nat.max_eq_left this
    simpa [annotsMaxLastEdited] using this.symm

/-- C8: under the C9 invariant (each entry's annotation list
`lastEdited`-descending, so its head is its newest annotation),
`sortUnifiedBlankSearchResult` returns the pairs sorted descending by
activity timestamp (max of page-level timestamp and newest annotation
edit time, 0 for no annotations), as a stable permutation of its input;
concretely, entries with activity timestamps [100, 50, 200] come out
reordered to [200, 100, 50]. -/
theorem C8_sort_ranking :
    (∀ l : List (JsStr × PageResultEntry),
      (∀ pr ∈ l, pr.2.annotations.Pairwise (fun a b => b.lastEdited ≤ a.lastEdited)) →
        (sortUnifiedBlankSearchResult l).Pairwise
            (fun x y => activityTimestamp y.2 ≤ activityTimestamp x.2) ∧
          (sortUnifiedBlankSearchResult l).Perm l ∧
          (∀ k : Nat,
            (sortUnifiedBlankSearchResult l).filter
                (fun pr => decide (activityTimestamp pr.2 = k)) =
              l.filter (fun pr => decide (activityTimestamp pr.2 = k)))) ∧
    sortUnifiedBlankSearchResult
        [(['a'], ⟨100, []⟩), (['b'], ⟨50, []⟩), (['c'], ⟨200, []⟩)] =
      [(['c'], ⟨200, []⟩), (['a'], ⟨100, []⟩), (['b'], ⟨50, []⟩)] := by
  constructor
  · intro l hl
    unfold sortUnifiedBlankSearchResult
    have hperm : (sortByKeyDesc (fun pr : JsStr × PageResultEntry => blankEntryKey pr.2) l).Perm l :=
      sortByKeyDesc_perm (fun pr => blankEntryKey pr.2) l
    have hkey : ∀ pr ∈ l, blankEntryKey pr.2 = activityTimestamp pr.2 := by
      intro pr hpr
      unfold blankEntryKey activityTimestamp
      rw [annotsHead_eq_max pr.2.annotations (hl pr hpr)]
    refine ⟨?_, hperm, ?_⟩
    · have hp := sortByKeyDesc_pairwise (fun pr => blankEntryKey pr.2) l
      refine hp.imp_of_mem ?_
      intro x y hx hy hxy
      rw [← hkey x (hperm.mem_iff.mp hx), ← hkey y (hperm.mem_iff.mp hy)]
      exact hxy
    · intro k
      have c1 : (sortByKeyDesc (fun pr : JsStr × PageResultEntry => blankEntryKey pr.2) l).filter
            (fun pr => decide (activityTimestamp pr.2 = k)) =
          (sortByKeyDesc (fun pr : JsStr × PageResultEntry => blankEntryKey pr.2) l).filter
            (fun pr => decide (blankEntryKey pr.2 = k)) :=
        List.filter_congr fun pr hpr => by
          rw [hkey pr (hperm.mem_iff.mp hpr)]
      have c2 : l.filter (fun pr => decide (blankEntryKey pr.2 = k)) =
          l.filter (fun pr => decide (activityTimestamp pr.2 = k)) :=
        List.filter_congr fun pr hpr => by rw [hkey pr hpr]
      rw [c1, ← c2]
      exact sortByKeyDesc_filter (fun pr => blankEntryKey pr.2) k l
  · decide

/-- Witness for C8: applying the ranking theorem to a concrete two-entry
collection whose (empty) annotation lists are trivially descending. -/
theorem C8_sort_ranking_witness :
    (sortUnifiedBlankSearchResult [(['a'], ⟨100, []⟩), (['b'], ⟨50, []⟩)]).Pairwise
      (fun x y => activityTimestamp y.2 ≤ activityTimestamp x.2) ∧
    (sortUnifiedBlankSearchResult [(['a'], ⟨100, []⟩), (['b'], ⟨50, []⟩)]).Perm
      [(['a'], ⟨100, []⟩), (['b'], ⟨50, []⟩)] :=
  ⟨(C8_sort_ranking.1 [(['a'], ⟨100, []⟩), (['b'], ⟨50, []⟩)] (by decide)).1,
    (C8_sort_ranking.1 [(['a'], ⟨100, []⟩), (['b'], ⟨50, []⟩)] (by decide)).2.1⟩

/-- C10: the source spreads `resultDataByPage` into a fresh array before
the in-place `sort`, so the argument's contents after the call are its
original pairs in their original order, while the returned value is the
sorted permutation of them. -/
theorem C10_sort_no_mutation (resultDataByPage : List (JsStr × PageResultEntry)) :
    (sortUnifiedBlankSearchResultEff resultDataByPage).2 = resultDataByPage ∧
    (sortUnifiedBlankSearchResultEff resultDataByPage).1 =
      sortUnifiedBlankSearchResult resultDataByPage ∧
    (sortUnifiedBlankSearchResultEff resultDataByPage).1.Perm resultDataByPage := by
  refine ⟨rfl, rfl, ?_⟩
  show (sortUnifiedBlankSearchResult resultDataByPage).Perm resultDataByPage
  unfold sortUnifiedBlankSearchResult
  exact sortByKeyDesc_perm (fun pr => blankEntryKey pr.2) resultDataByPage

end Memex
